import Mathlib

/-!
# Verification of `cluster_utils_PANGEO.py` (OceanClusteringMethods)

A shallow embedding of the core array operations of
`src/cluster_utils_PANGEO.py`: PCA transform with NaN masking, GMM
classification with the sentinel `-1` convention, label reordering,
profile matching, temperature sorting, random sampling, and the
per-class aggregators.

Modelling conventions:
* A floating value that may be NaN is `Option ℚ` (`none` = NaN); exact
  rationals stand for the float values, since no claim depends on
  rounding.
* An (time, location, depth) array is `List (List (List (Option ℚ)))`;
  the `apply_ufunc` wrappers with one core dimension map a row function
  over the two leading axes.
* Class labels are `ℤ` so that the sentinel `-1` is representable.
* External scikit-learn models appear through the data their documented
  interface exposes: a fitted PCA is its mean and component matrix and
  `PCA.transform x = (x - mean) @ components.T` (whiten = False, the
  default used by `train_pca`); `GaussianMixture.predict`,
  `predict_proba` and `score_samples` are caller-supplied functions
  whose documented contracts (a label below `n_components`, a length-K
  probability row) become hypotheses where needed.
* `numpy.random.Generator.choice(arr, N, replace=False)` is external and
  nondeterministic; its outcome is a caller-supplied list of row indices,
  constrained by the documented contract (N distinct in-range indices).
-/

namespace OceanClustering

/-- A float value that may be NaN: `none` stands for NaN. -/
abbrev Val := Option ℚ

/-- Zero-fill of a row, the effect of `arr_r[inds] = 0` on the values that
are read afterwards (lines 162-163, 208-209, 239-240, 276-277). -/
def fillZero (row : List Val) : List ℚ := row.map (fun v => v.getD 0)

/-- A fitted scikit-learn PCA, as consumed by `pca_transform`: the mean
vector and the component matrix (one row per retained component). -/
structure PCAModel where
  mean : List ℚ
  components : List (List ℚ)

/-- `pca.n_components` (line 157). -/
def PCAModel.nComponents (p : PCAModel) : ℕ := p.components.length

/-- Dot product of two vectors. -/
def dotQ (a b : List ℚ) : ℚ := (List.zipWith (fun x y => x * y) a b).sum

/-- `pca.transform` on one row (external scikit-learn, documented formula
with `whiten=False`): `(x - mean_) @ components_.T`. -/
def PCAModel.transformRow (p : PCAModel) (x : List ℚ) : List ℚ :=
  p.components.map (fun c => dotQ (List.zipWith (fun a b => a - b) x p.mean) c)

/-- The inner `func` of `pca_transform` on one row (lines 159-170): NaN
entries are zero-filled, the projection is computed, and then
`out[inds[..., 0:n_comp]] = np.nan` re-masks the output: output component
`c` is set to NaN exactly when depth entry `c` (for `c < n_components`)
of the input row was NaN. -/
def pcaTransformRow (p : PCAModel) (row : List Val) : List Val :=
  List.zipWith (fun m y => if m then none else some y)
    ((row.map Option.isNone).take p.nComponents)
    (p.transformRow (fillZero row))

/-- `pca_transform` (lines 151-187): the row function applied over the
leading (time, location) axes by `xr.apply_ufunc` with core dim `lev`. -/
def pca_transform (p : PCAModel) (data : List (List (List Val))) :
    List (List (List Val)) :=
  data.map (fun slice => slice.map (pcaTransformRow p))

/-- The inner `func` of `gmm_classify` on one row (lines 204-214): the
row is zero-filled and predicted, then `out[inds[:, 0]] = -1` overwrites
the label with the sentinel exactly where the FIRST component of the row
was NaN.  `predict` is the external `gmm.predict` on one zero-filled
row. -/
def gmmClassifyRow (predict : List ℚ → ℕ) (row : List Val) : ℤ :=
  if (row.getD 0 (some 0)).isNone then -1 else (predict (fillZero row) : ℤ)

/-- `gmm_classify` (lines 197-226): the row function applied over the
leading axes, core dim `pca_comp`. -/
def gmm_classify (predict : List ℚ → ℕ) (data : List (List (List Val))) :
    List (List ℤ) :=
  data.map (fun slice => slice.map (gmmClassifyRow predict))

/-- The inner `func` of `gmm_prob` on one row (lines 236-247):
`out[inds[:, 0]] = np.nan` overwrites the whole length-K probability row
with NaN exactly when the FIRST component of the row was NaN.
`predictProba` is the external `gmm.predict_proba` on one zero-filled
row (a length-K vector); `K = gmm.n_components`. -/
def gmmProbRow (K : ℕ) (predictProba : List ℚ → List ℚ) (row : List Val) :
    List Val :=
  if (row.getD 0 (some 0)).isNone then List.replicate K none
  else (predictProba (fillZero row)).map some

/-- `gmm_prob` (lines 228-262). -/
def gmm_prob (K : ℕ) (predictProba : List ℚ → List ℚ)
    (data : List (List (List Val))) : List (List (List Val)) :=
  data.map (fun slice => slice.map (gmmProbRow K predictProba))

/-- The inner `func` of `gmm_score_samples` on one row (lines 273-284):
`out[inds[:, 0]] = np.nan` makes the score NaN exactly when the FIRST
component of the row was NaN.  `score` is the external
`gmm.score_samples` on one zero-filled row. -/
def gmmScoreRow (score : List ℚ → ℚ) (row : List Val) : Val :=
  if (row.getD 0 (some 0)).isNone then none else some (score (fillZero row))

/-- `gmm_score_samples` (lines 265-299). -/
def gmm_score_samples (score : List ℚ → ℚ) (data : List (List (List Val))) :
    List (List Val) :=
  data.map (fun slice => slice.map (gmmScoreRow score))

/-- `inds_r` of `reorder` (lines 447-448): `inds_r = np.zeros(len(inds))`
then the vectorized assignment `inds_r[inds] = np.arange(len(inds))`,
i.e. for `j = 0, 1, ...` in order, position `inds[j]` is set to `j`. -/
def invPerm (inds : List ℕ) : List ℤ :=
  (List.range inds.length).foldl
    (fun acc j => acc.set (inds.getD j 0) (j : ℤ))
    (List.replicate inds.length 0)

/-- The `func` of `reorder` on one label (lines 450-453): `out =
inds_r[arr]` then `out[arr == -1] = -1`.  A negative NumPy index wraps
(`inds_r[-1]` is the last entry), hence the `% length`; the sentinel is
then overwritten with `-1`. -/
def reorderLabel (inds : List ℕ) (v : ℤ) : ℤ :=
  if v = -1 then -1
  else (invPerm inds).getD ((v % (inds.length : ℤ)).toNat) 0

/-- `reorder` (lines 446-468): `func` applied elementwise over the
class-assignment array (flattened here to one list of labels). -/
def reorder (a : List ℤ) (inds : List ℕ) : List ℤ :=
  a.map (reorderLabel inds)

/-- A per-class summary record, one element of the list built by
`avg_profiles` (lines 372-386): a mean profile and a std profile. -/
structure ProfSummary where
  mean : List ℚ
  std : List ℚ
deriving DecidableEq

/-- Default record for out-of-range access. -/
def emptyProf : ProfSummary := ⟨[], []⟩

/-- `np.argsort` (external NumPy) on a vector of keys: the list of
indices `0, ..., n-1` sorted by key.  NumPy's default quicksort is
unstable, but every correct argsort agrees with this stable one whenever
the keys are distinct, which is the only case the claims exercise. -/
def argsortQ (l : List ℚ) : List ℕ :=
  List.insertionSort (fun i j => l.getD i 0 ≤ l.getD j 0) (List.range l.length)

/-- `top_mean` of `temp_sort` (line 439): the shallowest-level mean of
each class summary, `[i['mean'][0] for i in avg]`. -/
def topMeans (avg : List ProfSummary) : List ℚ :=
  avg.map (fun s => s.mean.getD 0 0)

/-- `temp_sort` with `arg=False` (lines 435-444): argsort the
shallowest-level means and relabel the assignment through `reorder`. -/
def temp_sort (a : List ℤ) (avg : List ProfSummary) : List ℤ :=
  reorder a (argsortQ (topMeans avg))

/-- `temp_sort` with `arg=True` (lines 441-442): return the sorting
permutation itself. -/
def temp_sortArg (avg : List ProfSummary) : List ℕ :=
  argsortQ (topMeans avg)

/-- Squared-difference norm between two mean profiles, the default
distance of `match_profiles` (lines 412-413): `np.sum(diff * diff)`. -/
def sqDiff (a b : List ℚ) : ℚ :=
  (List.zipWith (fun x y => (x - y) * (x - y)) a b).sum

/-- Scanning part of `np.argmin` (external NumPy): running first-minimum
over the remaining entries, where `i` is the index of the next entry and
`(bi, bv)` the best index and value so far; ties keep the earlier index,
as NumPy documents. -/
def argminFrom : ℕ → ℕ → ℚ → List ℚ → ℕ
  | _, bi, _, [] => bi
  | i, bi, bv, v :: rest =>
    if v < bv then argminFrom (i + 1) i v rest
    else argminFrom (i + 1) bi bv rest

/-- `np.argmin` on one row: index of the first minimal entry. -/
def argminList : List ℚ → ℕ
  | [] => 0
  | v :: rest => argminFrom 1 0 v rest

/-- `match_profiles` with the default `dist=None` (lines 397-418): the
`assert n_classes == len(avg1)` is the `Option` guard; `norms[i, j]` is
the squared-difference norm between `avg0[i]['mean']` and
`avg1[j]['mean']`; the result is the row-wise argmin. -/
def match_profiles (avg0 avg1 : List ProfSummary) : Option (List ℕ) :=
  if avg0.length = avg1.length then
    some ((List.range avg0.length).map (fun i =>
      argminList ((List.range avg0.length).map (fun j =>
        sqDiff (avg0.getD i emptyProf).mean (avg1.getD j emptyProf).mean))))
  else none

/-- The inner `func` of `count_area` (lines 326-329):
`out[i] = np.sum(cos_lats * (arr == i))` for `i` below `K`, where
`cos_lats` is the per-location `cos(lat * pi / 180)` vector computed
outside `func` (line 325) and here passed in as a list, since cosine is
not rational in general (the claim only needs `cos 0 = 1`). -/
def countAreaFunc (cosLats : List ℚ) (arr : List ℤ) (K : ℕ) : List ℚ :=
  (List.range K).map (fun (i : ℕ) =>
    (List.zipWith (fun c v => c * (if v = (i : ℤ) then 1 else 0)) cosLats arr).sum)

/-- The inner `func` of `mean_lat` (lines 350-353):
`out[i] = np.mean(lats * (arr == i))`, i.e. the masked latitude vector is
averaged over ALL locations: its sum is divided by the total length, not
by the number of locations assigned to class `i`. -/
def meanLatFunc (lats : List ℚ) (arr : List ℤ) (K : ℕ) : List ℚ :=
  (List.range K).map (fun (i : ℕ) =>
    (List.zipWith (fun l v => l * (if v = (i : ℤ) then 1 else 0)) lats arr).sum
      / (arr.length : ℚ))

/-- The latitude total of the locations assigned to class `k`: the sum of
`lats` restricted to positions where `arr` holds `k`.  This is the
reference quantity the `mean_lat` characterization is compared with. -/
def latSumOfClass (lats : List ℚ) (arr : List ℤ) (k : ℤ) : ℚ :=
  (((lats.zip arr).filter (fun p => p.2 == k)).map Prod.fst).sum

/-- One outcome of `rng.choice(arr, N, replace=False)` (line 112,
external NumPy): the rows of `arr` at a list of chosen indices.  The
documented contract of `choice` with `replace=False` - `sel` has `N`
distinct indices, all in range - appears as hypotheses where needed. -/
def choiceRows (arr : List (List Val)) (sel : List ℕ) : List (List Val) :=
  sel.map (fun i => arr.getD i [])

/-- The per-time-slice samples of `random_sample` (lines 100-130):
`func` applied independently to each time slice (`sels` holds one choice
outcome per slice). -/
def randomSampleSlices (data : List (List (List Val)))
    (sels : List (List ℕ)) : List (List (List Val)) :=
  List.zipWith choiceRows data sels

/-- `random_sample` (lines 100-130): after the per-slice choice, `result
.stack(N=('M','time')).transpose('N','lev')` interleaves the draws with
the time index varying fastest: sample `(m, t)` is slice `t`'s draw
`m`. -/
def random_sample (data : List (List (List Val))) (sels : List (List ℕ))
    (N : ℕ) : List (List Val) :=
  ((List.range N).map (fun m =>
    (randomSampleSlices data sels).map (fun s => s.getD m []))).flatten

/-- A profile row is valid when it is not fully missing. -/
def validRow (r : List Val) : Bool := r.any (fun v => v.isSome)

/-- The number of valid (not fully missing) rows of a time slice. -/
def validCount (slice : List (List Val)) : ℕ :=
  (slice.filter validRow).length

/-- The state of the input row of `pca_transform`'s `func` after the
call: `np.reshape` returns a view for a contiguous argument and
`arr_r[inds] = 0` (line 163) writes through it, so every NaN entry of
the argument reads `0` afterwards. -/
def pcaFuncInputAfter (row : List Val) : List Val :=
  row.map (fun v => some (v.getD 0))

/-- The state of the input row of `gmm_classify`'s `func` after the
call: same in-place zero-fill, `arr_r[inds] = 0` at line 208. -/
def gmmFuncInputAfter (row : List Val) : List Val :=
  row.map (fun v => some (v.getD 0))

/-! ## Helper lemmas -/

lemma getD_set_self (l : List ℤ) (i : ℕ) (x : ℤ) (h : i < l.length) :
    (l.set i x).getD i 0 = x := by
  rw [List.getD_eq_getElem?_getD, List.getElem?_set_self h]
  rfl

lemma getD_set_ne (l : List ℤ) {i j : ℕ} (x : ℤ) (h : i ≠ j) :
    (l.set i x).getD j 0 = l.getD j 0 := by
  rw [List.getD_eq_getElem?_getD, List.getElem?_set_ne h,
    ← List.getD_eq_getElem?_getD]

lemma foldl_set_length (inds : List ℕ) :
    ∀ (js : List ℕ) (acc : List ℤ),
      (js.foldl (fun a j => a.set (inds.getD j 0) (j : ℤ)) acc).length
        = acc.length := by
  intro js
  induction js with
  | nil => intro acc; rfl
  | cons j r ih => intro acc; rw [List.foldl_cons, ih, List.length_set]

lemma getD_mem_of_lt {α : Type _} (l : List α) (d : α) {k : ℕ}
    (hk : k < l.length) : l.getD k d ∈ l := by
  rw [List.getD_eq_getElem _ _ hk]
  exact List.getElem_mem hk

lemma nodup_getD_ne (inds : List ℕ) (hn : inds.Nodup) {i j : ℕ}
    (hi : i < inds.length) (hj : j < inds.length) (hij : i ≠ j) :
    inds.getD i 0 ≠ inds.getD j 0 := by
  rw [List.getD_eq_getElem _ _ hi, List.getD_eq_getElem _ _ hj]
  intro h
  exact hij (hn.getElem_inj_iff.mp h)

lemma invPerm_foldl (inds : List ℕ) (hn : inds.Nodup)
    (hb : ∀ x ∈ inds, x < inds.length) :
    ∀ (k : ℕ), k ≤ inds.length → ∀ i, i < k →
      ((List.range k).foldl (fun a j => a.set (inds.getD j 0) (j : ℤ))
        (List.replicate inds.length 0)).getD (inds.getD i 0) 0 = (i : ℤ) := by
  intro k
  induction k with
  | zero => intro _ i hi; omega
  | succ k ih =>
    intro hk i hi
    rw [List.range_succ, List.foldl_append, List.foldl_cons, List.foldl_nil]
    by_cases hik : i = k
    · subst hik
      apply getD_set_self
      rw [foldl_set_length, List.length_replicate]
      exact hb _ (getD_mem_of_lt inds 0 (by omega))
    · rw [getD_set_ne _ (k : ℤ)
        (nodup_getD_ne inds hn (by omega) (by omega) (fun h => hik h.symm))]
      exact ih (by omega) i (by omega)

/-- `inds_r[inds[i]] = i`: the vectorized assignment builds the inverse
permutation. -/
lemma invPerm_spec (inds : List ℕ) (hn : inds.Nodup)
    (hb : ∀ x ∈ inds, x < inds.length) {i : ℕ} (hi : i < inds.length) :
    (invPerm inds).getD (inds.getD i 0) 0 = (i : ℤ) :=
  invPerm_foldl inds hn hb inds.length le_rfl i hi

/-- A duplicate-free list of `K` naturals below `K` hits every value
below `K`. -/
lemma perm_getD_surj (p : List ℕ) (K : ℕ) (hl : p.length = K) (hn : p.Nodup)
    (hb : ∀ x ∈ p, x < K) (v : ℕ) (hv : v < K) :
    ∃ i, i < K ∧ p.getD i 0 = v := by
  have hsub : p.toFinset ⊆ Finset.range K := by
    intro x hx
    rw [Finset.mem_range]
    exact hb x (List.mem_toFinset.mp hx)
  have hcard : (Finset.range K).card ≤ p.toFinset.card := by
    rw [Finset.card_range, List.toFinset_card_of_nodup hn, hl]
  have heq := Finset.eq_of_subset_of_card_le hsub hcard
  have hvmem : v ∈ p := List.mem_toFinset.mp (heq ▸ Finset.mem_range.mpr hv)
  obtain ⟨i, hlt, hget⟩ := List.mem_iff_getElem.mp hvmem
  exact ⟨i, hl ▸ hlt, by rw [List.getD_eq_getElem _ _ hlt]; exact hget⟩

/-- `reorder`'s per-label function sends the label `inds[j]` to `j`. -/
lemma reorderLabel_getD (p : List ℕ) (hn : p.Nodup)
    (hb : ∀ x ∈ p, x < p.length) (j : ℕ) (hj : j < p.length) :
    reorderLabel p ((p.getD j 0 : ℕ) : ℤ) = (j : ℤ) := by
  have hlt : p.getD j 0 < p.length := hb _ (getD_mem_of_lt p 0 hj)
  unfold reorderLabel
  rw [if_neg (by omega), Int.emod_eq_of_lt (by omega) (by exact_mod_cast hlt)]
  rw [Int.toNat_natCast]
  exact invPerm_spec p hn hb hj

/-- `reorder`'s per-label function preserves the sentinel. -/
lemma reorderLabel_sentinel (p : List ℕ) : reorderLabel p (-1) = -1 := by
  simp [reorderLabel]

/-! ## Claim theorems -/

/-- C2: for every ClassAssignment array `a` (labels in `[0, K)` or the
sentinel `-1`) and every permutation `p` of `[0, K)` with inverse `q`,
`reorder (reorder a p) q = a`, and every position holding the sentinel
`-1` in `a` still holds `-1` after any single `reorder`. -/
theorem reorder_roundtrip (K : ℕ) (p q : List ℕ) (a : List ℤ)
    (hpl : p.length = K) (hql : q.length = K)
    (hpn : p.Nodup) (hqn : q.Nodup)
    (hpb : ∀ x ∈ p, x < K) (hqb : ∀ x ∈ q, x < K)
    (hinv : ∀ j, j < K → q.getD (p.getD j 0) 0 = j)
    (ha : ∀ v ∈ a, v = -1 ∨ (0 ≤ v ∧ v < (K : ℤ))) :
    reorder (reorder a p) q = a ∧
      (∀ i, i < a.length → a.getD i 0 = -1 → (reorder a p).getD i 0 = -1) := by
  constructor
  · unfold reorder
    rw [List.map_map]
    have hid : ∀ v ∈ a, (reorderLabel q ∘ reorderLabel p) v = v := by
      intro v hv
      simp only [Function.comp_apply]
      rcases ha v hv with hsen | ⟨h0, hK⟩
      · rw [hsen, reorderLabel_sentinel, reorderLabel_sentinel]
      · obtain ⟨j, hjK, hpj⟩ :=
          perm_getD_surj p K hpl hpn hpb v.toNat (by omega)
        have hvcast : ((p.getD j 0 : ℕ) : ℤ) = v := by
          rw [hpj, Int.toNat_of_nonneg h0]
        have h1 : reorderLabel p v = (j : ℤ) := by
          rw [← hvcast]
          exact reorderLabel_getD p hpn (by rw [hpl]; exact hpb) j (hpl ▸ hjK)
        have hqv : q.getD v.toNat 0 = j := by rw [← hpj]; exact hinv j hjK
        have h2 : reorderLabel q ((j : ℕ) : ℤ) = (v.toNat : ℤ) := by
          rw [← hqv]
          exact reorderLabel_getD q hqn (by rw [hql]; exact hqb) v.toNat
            (by rw [hql]; omega)
        rw [h1, h2, Int.toNat_of_nonneg h0]
    rw [List.map_congr_left hid, List.map_id']
  · intro i hi hsent
    have hi' : i < (reorder a p).length := by
      rw [reorder, List.length_map]; exact hi
    rw [List.getD_eq_getElem _ _ hi']
    rw [List.getD_eq_getElem _ _ hi] at hsent
    simp only [reorder, List.getElem_map]
    rw [hsent, reorderLabel_sentinel]

/-- Witness for C2 at `K = 3`, `p = [1, 2, 0]`, `q = [2, 0, 1]`,
`a = [-1, 0, 1, 2]`. -/
theorem reorder_roundtrip_witness :
    reorder (reorder [-1, 0, 1, 2] [1, 2, 0]) [2, 0, 1] = [-1, 0, 1, 2] ∧
      (∀ i, i < ([-1, 0, 1, 2] : List ℤ).length →
        ([-1, 0, 1, 2] : List ℤ).getD i 0 = -1 →
        (reorder [-1, 0, 1, 2] [1, 2, 0]).getD i 0 = -1) :=
  reorder_roundtrip 3 [1, 2, 0] [2, 0, 1] [-1, 0, 1, 2]
    (by decide) (by decide) (by decide) (by decide) (by decide) (by decide)
    (by decide) (by decide)

lemma transformRow_length (p : PCAModel) (x : List ℚ) :
    (p.transformRow x).length = p.nComponents := by
  unfold PCAModel.transformRow PCAModel.nComponents
  rw [List.length_map]

lemma pcaTransformRow_length (p : PCAModel) (row : List Val)
    (hl : p.nComponents ≤ row.length) :
    (pcaTransformRow p row).length = p.nComponents := by
  unfold pcaTransformRow
  rw [List.length_zipWith, List.length_take, List.length_map,
    transformRow_length]
  omega

/-- Component `c` of `pca_transform`'s output row is NaN exactly when
depth entry `c` of its input row is NaN (for `c < n_components`). -/
lemma pcaRow_getD_none_iff (p : PCAModel) (row : List Val)
    (hl : p.nComponents ≤ row.length) {c : ℕ} (hc : c < p.nComponents) :
    ((pcaTransformRow p row).getD c (some 0) = none ↔
      row.getD c (some 0) = none) := by
  have hcr : c < row.length := lt_of_lt_of_le hc hl
  have hc' : c < (pcaTransformRow p row).length := by
    rw [pcaTransformRow_length p row hl]; exact hc
  rw [List.getD_eq_getElem _ _ hc', List.getD_eq_getElem _ _ hcr]
  unfold pcaTransformRow at hc' ⊢
  rw [List.getElem_zipWith, List.getElem_take, List.getElem_map]
  by_cases hm : row[c] = none
  · simp [hm]
  · simp [hm, Option.isNone_iff_eq_none]

/-- C1 counterexample: for the trained 2-component PCA with mean
`[0,0,0]` and orthonormal components `[[1,0,0],[0,1,0]]`, the input row
`[1, 2, NaN]` has a missing depth value, yet `pca_transform`'s output
row `[1, 2]` has no missing component at all: the masking
`out[inds[..., 0:n_comp]] = np.nan` is elementwise over the first
`n_comp` depth positions, not row-wise. -/
theorem pca_mask_counterexample :
    ([some 1, some 2, none] : List Val).any Option.isNone = true ∧
    (pcaTransformRow ⟨[0, 0, 0], [[1, 0, 0], [0, 1, 0]]⟩
        [some 1, some 2, none]).all Option.isSome = true := by
  decide

/-- C1 amended: output component `c` of `pca_transform` is missing iff
input depth entry `c` is missing (for `c < n_components`); in
particular a fully-missing input row yields a fully-missing output row,
but a row whose missing entries all lie at depth positions at or beyond
`n_components` is not masked at all. -/
theorem pca_transform_componentwise_mask (p : PCAModel) (row : List Val)
    (hl : p.nComponents ≤ row.length) :
    (∀ c, c < p.nComponents →
      ((pcaTransformRow p row).getD c (some 0) = none ↔
        row.getD c (some 0) = none)) ∧
    ((∀ v ∈ row, v = none) → ∀ c, c < p.nComponents →
      (pcaTransformRow p row).getD c (some 0) = none) := by
  refine ⟨fun c hc => pcaRow_getD_none_iff p row hl hc, fun hall c hc => ?_⟩
  rw [pcaRow_getD_none_iff p row hl hc,
    List.getD_eq_getElem _ _ (lt_of_lt_of_le hc hl)]
  exact hall _ (List.getElem_mem _)

/-- Witness for the amended C1 at a concrete model and row. -/
theorem pca_transform_componentwise_mask_witness :
    ((PCAModel.mk [0, 0, 0] [[1, 0, 0], [0, 1, 0]]).nComponents ≤
      ([some 1, none, some 3] : List Val).length) ∧
    ((pcaTransformRow ⟨[0, 0, 0], [[1, 0, 0], [0, 1, 0]]⟩
        [some 1, none, some 3]).getD 1 (some 0) = none ↔
      ([some 1, none, some 3] : List Val).getD 1 (some 0) = none) :=
  ⟨by decide,
    (pca_transform_componentwise_mask ⟨[0, 0, 0], [[1, 0, 0], [0, 1, 0]]⟩
      [some 1, none, some 3] (by decide)).1 1 (by decide)⟩

/-- C8 counterexample: `pca_transform`'s and `gmm_classify`'s inner
`func` zero-fill the NaN entries of their argument in place (the
reshape is a view), so an input row containing a NaN reads differently
after the call: the inputs are NOT left unchanged. -/
theorem transform_mutation_counterexample :
    pcaFuncInputAfter [none, some 1, some 2] ≠ [none, some 1, some 2] ∧
    gmmFuncInputAfter [none, some 1] ≠ [none, some 1] := by
  decide

/-- C8 amended: the in-place zero-fill touches exactly the missing
entries, so a row with no missing entry is left unchanged by
`pca_transform`'s and `gmm_classify`'s `func`; purity holds only on
NaN-free input. -/
theorem transform_pure_only_on_complete_rows (row : List Val)
    (h : ∀ v ∈ row, v.isSome) :
    pcaFuncInputAfter row = row ∧ gmmFuncInputAfter row = row := by
  have hid : ∀ v ∈ row, some (v.getD 0) = v := by
    intro v hv
    cases v with
    | none => exact absurd (h none hv) (by simp)
    | some x => rfl
  constructor
  · rw [pcaFuncInputAfter, List.map_congr_left hid, List.map_id']
  · rw [gmmFuncInputAfter, List.map_congr_left hid, List.map_id']

/-- Witness for the amended C8 on a complete row. -/
theorem transform_pure_witness :
    (∀ v ∈ ([some 1, some 2] : List Val), v.isSome) ∧
    (pcaFuncInputAfter [some 1, some 2] = [some 1, some 2] ∧
      gmmFuncInputAfter [some 1, some 2] = [some 1, some 2]) :=
  ⟨by decide, transform_pure_only_on_complete_rows [some 1, some 2] (by decide)⟩

lemma getD_map_getD {α β : Type _} (f : α → β) (xs : List α) {i : ℕ}
    (d : β) (d' : α) (h : i < xs.length) :
    (xs.map f).getD i d = f (xs.getD i d') := by
  rw [List.getD_eq_getElem _ _ (by rw [List.length_map]; exact h),
    List.getElem_map, List.getD_eq_getElem _ _ h]

lemma gmmClassifyRow_of_first_none (predict : List ℚ → ℕ) (row : List Val)
    (h : row.getD 0 (some 0) = none) : gmmClassifyRow predict row = -1 := by
  unfold gmmClassifyRow
  rw [h]
  rfl

lemma gmmClassifyRow_of_first_some (predict : List ℚ → ℕ) (row : List Val)
    (h : row.getD 0 (some 0) ≠ none) :
    gmmClassifyRow predict row = (predict (fillZero row) : ℤ) := by
  simp only [gmmClassifyRow, Option.isNone_iff_eq_none]
  rw [if_neg h]

/-- C10: in `gmm_classify`, `gmm_prob` and `gmm_score_samples`, the
missing-row output (sentinel `-1`, all-NaN probability row, NaN score)
is applied to a row exactly when the FIRST component of that row is
missing; a row whose first component is present is zero-filled and
handled as ordinary data even if later components are missing. -/
theorem gmm_missing_iff_first_component (K : ℕ) (predict : List ℚ → ℕ)
    (predictProba : List ℚ → List ℚ) (score : List ℚ → ℚ)
    (data : List (List (List Val))) (t l : ℕ) (row : List Val)
    (ht : t < data.length) (hl : l < (data.getD t []).length)
    (hrow : (data.getD t []).getD l [] = row) :
    (((gmm_classify predict data).getD t []).getD l (-2) = -1 ↔
      (row.getD 0 (some 0)).isNone = true) ∧
    ((row.getD 0 (some 0)).isNone = false →
      ((gmm_classify predict data).getD t []).getD l (-2)
          = (predict (fillZero row) : ℤ) ∧
      ((gmm_prob K predictProba data).getD t []).getD l []
          = (predictProba (fillZero row)).map some ∧
      ((gmm_score_samples score data).getD t []).getD l none
          = some (score (fillZero row))) ∧
    ((row.getD 0 (some 0)).isNone = true →
      ((gmm_classify predict data).getD t []).getD l (-2) = -1 ∧
      ((gmm_prob K predictProba data).getD t []).getD l []
          = List.replicate K none ∧
      ((gmm_score_samples score data).getD t []).getD l none = none) := by
  have h1 : ((gmm_classify predict data).getD t []).getD l (-2)
      = gmmClassifyRow predict row := by
    rw [gmm_classify, getD_map_getD _ data [] [] ht,
      getD_map_getD _ _ (-2) [] hl, hrow]
  have h2 : ((gmm_prob K predictProba data).getD t []).getD l []
      = gmmProbRow K predictProba row := by
    rw [gmm_prob, getD_map_getD _ data [] [] ht,
      getD_map_getD _ _ [] [] hl, hrow]
  have h3 : ((gmm_score_samples score data).getD t []).getD l none
      = gmmScoreRow score row := by
    rw [gmm_score_samples, getD_map_getD _ data [] [] ht,
      getD_map_getD _ _ none [] hl, hrow]
  rw [h1, h2, h3]
  by_cases hm : row.getD 0 (some 0) = none
  · have hmb : (row.getD 0 (some 0)).isNone = true := by rw [hm]; rfl
    refine ⟨?_, fun hcontra => ?_, fun _ => ?_⟩
    · rw [gmmClassifyRow_of_first_none predict row hm, hmb]
      exact ⟨fun _ => rfl, fun _ => rfl⟩
    · rw [hmb] at hcontra; cases hcontra
    · refine ⟨gmmClassifyRow_of_first_none predict row hm, ?_, ?_⟩
      · unfold gmmProbRow; rw [hm]; rfl
      · unfold gmmScoreRow; rw [hm]; rfl
  · have hmb : (row.getD 0 (some 0)).isNone = false := by
      have : ¬((row.getD 0 (some 0)).isNone = true) :=
        fun h => hm (Option.isNone_iff_eq_none.mp h)
      rwa [Bool.not_eq_true] at this
    refine ⟨?_, fun _ => ?_, fun hcontra => ?_⟩
    · rw [gmmClassifyRow_of_first_some predict row hm, hmb]
      constructor
      · intro h; omega
      · intro h; cases h
    · refine ⟨gmmClassifyRow_of_first_some predict row hm, ?_, ?_⟩
      · simp only [gmmProbRow, Option.isNone_iff_eq_none]
        rw [if_neg hm]
      · simp only [gmmScoreRow, Option.isNone_iff_eq_none]
        rw [if_neg hm]
    · rw [hcontra] at hmb; cases hmb

/-- Witness for C10 at a concrete one-row array whose first component
is present and second component is missing. -/
theorem gmm_missing_iff_first_component_witness :
    (((gmm_classify (fun _ => 0) [[[some 1, none]]]).getD 0 []).getD 0 (-2)
        = -1 ↔
      (([some 1, none] : List Val).getD 0 (some 0)).isNone = true) ∧
    ((([some 1, none] : List Val).getD 0 (some 0)).isNone = false →
      ((gmm_classify (fun _ => 0) [[[some 1, none]]]).getD 0 []).getD 0 (-2)
          = ((fun (_ : List ℚ) => (0 : ℕ)) (fillZero [some 1, none]) : ℤ) ∧
      ((gmm_prob 1 (fun _ => [1]) [[[some 1, none]]]).getD 0 []).getD 0 []
          = ((fun (_ : List ℚ) => ([1] : List ℚ)) (fillZero [some 1, none])).map
              some ∧
      ((gmm_score_samples (fun _ => 0) [[[some 1, none]]]).getD 0 []).getD 0
          none
          = some ((fun (_ : List ℚ) => (0 : ℚ)) (fillZero [some 1, none]))) ∧
    ((([some 1, none] : List Val).getD 0 (some 0)).isNone = true →
      ((gmm_classify (fun _ => 0) [[[some 1, none]]]).getD 0 []).getD 0 (-2)
          = -1 ∧
      ((gmm_prob 1 (fun _ => [1]) [[[some 1, none]]]).getD 0 []).getD 0 []
          = List.replicate 1 none ∧
      ((gmm_score_samples (fun _ => 0) [[[some 1, none]]]).getD 0 []).getD 0
          none = none) :=
  gmm_missing_iff_first_component 1 (fun _ => 0) (fun _ => [1]) (fun _ => 0)
    [[[some 1, none]]] 0 0 [some 1, none] (by decide) (by decide) (by decide)

/-- C3: for a (time = 2, location = 4, depth = 3) ProfileArray with
exactly one fully-missing location (and no missing value elsewhere),
`pca_transform` followed by `gmm_classify` yields the sentinel `-1` at
exactly that location at both time steps, and a label in `[0, K)` at
every other location and time. -/
theorem pipeline_sentinel_end_to_end (p : PCAModel) (K : ℕ)
    (predict : List ℚ → ℕ)
    (hcomp : 0 < p.nComponents) (hlev : p.nComponents ≤ 3)
    (hpred : ∀ x, predict x < K)
    (data : List (List (List Val))) (lstar : ℕ)
    (ht : data.length = 2)
    (hloc : ∀ t, t < 2 → (data.getD t []).length = 4)
    (hdep : ∀ t l, t < 2 → l < 4 → ((data.getD t []).getD l []).length = 3)
    (hlstar : lstar < 4)
    (hmiss : ∀ t, t < 2 → ∀ v ∈ (data.getD t []).getD lstar [], v = none)
    (hvalid : ∀ t l, t < 2 → l < 4 → l ≠ lstar →
      ∀ v ∈ (data.getD t []).getD l [], v ≠ none) :
    ∀ t l, t < 2 → l < 4 →
      ((((gmm_classify predict (pca_transform p data)).getD t []).getD l (-2)
          = -1) ↔ l = lstar) ∧
      (l ≠ lstar →
        0 ≤ ((gmm_classify predict (pca_transform p data)).getD t []).getD l
              (-2) ∧
          ((gmm_classify predict (pca_transform p data)).getD t []).getD l
              (-2) < (K : ℤ)) := by
  intro t l htl hll
  have htlen : t < data.length := by omega
  have hllen : l < (data.getD t []).length := by rw [hloc t htl]; exact hll
  have hrowlen : ((data.getD t []).getD l []).length = 3 := hdep t l htl hll
  have e1 : (gmm_classify predict (pca_transform p data)).getD t []
      = ((pca_transform p data).getD t []).map (gmmClassifyRow predict) := by
    rw [gmm_classify]
    exact getD_map_getD _ _ [] []
      (by rw [pca_transform, List.length_map]; exact htlen)
  have e2 : (pca_transform p data).getD t []
      = (data.getD t []).map (pcaTransformRow p) := by
    rw [pca_transform]
    exact getD_map_getD _ _ [] [] htlen
  have e3 : ((gmm_classify predict (pca_transform p data)).getD t []).getD l
        (-2)
      = gmmClassifyRow predict (pcaTransformRow p ((data.getD t []).getD l [])) := by
    rw [e1, e2, List.map_map, getD_map_getD _ _ (-2) [] hllen]
    rfl
  set row := (data.getD t []).getD l [] with hrowdef
  have hpl : p.nComponents ≤ row.length := by rw [hrowlen]; exact hlev
  have h0lt : 0 < row.length := by rw [hrowlen]; omega
  rw [e3]
  by_cases hls : l = lstar
  · subst hls
    have h0r : row.getD 0 (some 0) = none := by
      rw [List.getD_eq_getElem _ _ h0lt]
      exact hmiss t htl _ (List.getElem_mem h0lt)
    have hp0 : (pcaTransformRow p row).getD 0 (some 0) = none :=
      (pcaRow_getD_none_iff p row hpl hcomp).mpr h0r
    refine ⟨⟨fun _ => rfl, fun _ => ?_⟩, fun hne => absurd rfl hne⟩
    exact gmmClassifyRow_of_first_none predict _ hp0
  · have h0r : row.getD 0 (some 0) ≠ none := by
      rw [List.getD_eq_getElem _ _ h0lt]
      exact hvalid t l htl hll hls _ (List.getElem_mem h0lt)
    have hp0 : (pcaTransformRow p row).getD 0 (some 0) ≠ none :=
      fun h => h0r ((pcaRow_getD_none_iff p row hpl hcomp).mp h)
    rw [gmmClassifyRow_of_first_some predict _ hp0]
    refine ⟨⟨fun h => ?_, fun h => absurd h hls⟩, fun _ => ⟨?_, ?_⟩⟩
    · omega
    · exact Int.natCast_nonneg _
    · exact_mod_cast hpred _

/-- Concrete trained 2-component PCA for the C3 witness. -/
def pcaC3 : PCAModel := ⟨[0, 0, 0], [[1, 0, 0], [0, 1, 0]]⟩

/-- Concrete (time = 2, location = 4, depth = 3) array for the C3
witness: location 2 is fully missing at both time steps, every other
location is complete. -/
def dataC3 : List (List (List Val)) :=
  [[[some 1, some 2, some 3], [some 4, some 5, some 6],
    [none, none, none], [some 7, some 8, some 9]],
   [[some 1, some 2, some 3], [some 4, some 5, some 6],
    [none, none, none], [some 7, some 8, some 9]]]

/-- Witness for C3, evaluated at time 0 for location 2 (the sentinel)
and location 0 (a valid label below `K = 1`). -/
theorem pipeline_sentinel_end_to_end_witness :
    ((gmm_classify (fun _ => 0) (pca_transform pcaC3 dataC3)).getD 0 []).getD 2
        (-2) = -1 ∧
      ((gmm_classify (fun _ => 0) (pca_transform pcaC3 dataC3)).getD 0 []).getD
        0 (-2) < ((1 : ℕ) : ℤ) := by
  have hdep : ∀ t l, t < 2 → l < 4 →
      ((dataC3.getD t []).getD l []).length = 3 := fun t l ht hl =>
    (by decide : ∀ t, t < 2 → ∀ l, l < 4 →
      ((dataC3.getD t []).getD l []).length = 3) t ht l hl
  have hvalid : ∀ t l, t < 2 → l < 4 → l ≠ 2 →
      ∀ v ∈ (dataC3.getD t []).getD l [], v ≠ none := fun t l ht hl hne =>
    (by decide : ∀ t, t < 2 → ∀ l, l < 4 → l ≠ 2 →
      ∀ v ∈ (dataC3.getD t []).getD l [], v ≠ none) t ht l hl hne
  exact ⟨(pipeline_sentinel_end_to_end pcaC3 1 (fun _ => 0) (by decide)
      (by decide) (fun _ => Nat.one_pos) dataC3 2 (by decide) (by decide) hdep
      (by decide) (by decide) hvalid 0 2 (by decide) (by decide)).1.mpr rfl,
    ((pipeline_sentinel_end_to_end pcaC3 1 (fun _ => 0) (by decide)
      (by decide) (fun _ => Nat.one_pos) dataC3 2 (by decide) (by decide) hdep
      (by decide) (by decide) hvalid 0 0 (by decide) (by decide)).2
      (by decide)).2⟩

lemma zipWith_one_mul (f : ℤ → ℚ) :
    ∀ (arr : List ℤ),
      List.zipWith (fun c v => c * f v) (List.replicate arr.length (1 : ℚ)) arr
        = arr.map f := by
  intro arr
  induction arr with
  | nil => rfl
  | cons a r ih => simp [List.replicate_succ, ih]

lemma sum_map_indicator (x : ℤ) :
    ∀ (arr : List ℤ),
      (arr.map (fun v => if v = x then (1 : ℚ) else 0)).sum
        = (arr.count x : ℚ) := by
  intro arr
  induction arr with
  | nil => simp
  | cons a r ih =>
    by_cases h : a = x
    · simp [h, ih, List.count_cons, add_comm]
    · simp [h, ih, List.count_cons]

lemma zipWith_mask_sum (k : ℤ) :
    ∀ (lats : List ℚ) (arr : List ℤ),
      (List.zipWith (fun l v => l * (if v = k then (1 : ℚ) else 0)) lats
        arr).sum = latSumOfClass lats arr k := by
  intro lats
  induction lats with
  | nil => intro arr; simp [latSumOfClass]
  | cons a r ih =>
    intro arr
    cases arr with
    | nil => simp [latSumOfClass]
    | cons b s =>
      simp only [List.zipWith_cons_cons, List.sum_cons, ih s]
      by_cases h : b = k
      · simp [latSumOfClass, List.zip_cons_cons, List.filter_cons, h]
      · simp [latSumOfClass, List.zip_cons_cons, List.filter_cons, h]

/-- C4 (the computation `count_area` evidently intends, see the result
notes: the function as written raises NameError because the
`return out` at line 330 sits at function scope where `out` is unbound,
before the vectorized apply ever runs): with uniform latitude 0, so a
cosine weight of exactly 1 everywhere, and the `N` locations split
evenly across the `K` classes, the per-class area-weighted count is
exactly `N / K` for every class. -/
theorem count_area_even_split (N K : ℕ) (arr : List ℤ)
    (harr : arr.length = N) (hdvd : K ∣ N)
    (hcount : ∀ k, k < K → arr.count (k : ℤ) = N / K) :
    ∀ k, k < K → (countAreaFunc (List.replicate N 1) arr K).getD k 0
      = (N : ℚ) / (K : ℚ) := by
  intro k hk
  have hK0 : ((K : ℚ)) ≠ 0 := Nat.cast_ne_zero.mpr (by omega)
  have hlen : k < (countAreaFunc (List.replicate N 1) arr K).length := by
    rw [countAreaFunc, List.length_map, List.length_range]; exact hk
  rw [List.getD_eq_getElem _ _ hlen]
  unfold countAreaFunc
  rw [List.getElem_map, List.getElem_range, ← harr,
    zipWith_one_mul (fun v => if v = (k : ℤ) then (1 : ℚ) else 0) arr,
    sum_map_indicator, hcount k hk, harr, Nat.cast_div hdvd hK0]

/-- Witness for C4 at `N = 4`, `K = 2`, assignment `[0, 0, 1, 1]`. -/
theorem count_area_even_split_witness :
    (countAreaFunc (List.replicate 4 1) [0, 0, 1, 1] 2).getD 0 0
      = (4 : ℚ) / (2 : ℚ) :=
  count_area_even_split 4 2 [0, 0, 1, 1] (by decide) (by decide) (by decide)
    0 (by decide)

/-- C9 counterexample: with latitudes `[10, 20]` and assignment
`[0, 1]`, the mean latitude over the locations assigned to class 0 is
10, but `mean_lat`'s per-class computation
`np.mean(lats * (arr == i))` yields `(10 + 0) / 2 = 5`: it divides by
the total number of locations, not by the number assigned. -/
theorem mean_lat_counterexample :
    (meanLatFunc [10, 20] [0, 1] 2).getD 0 0 = 5 ∧ ((5 : ℚ) ≠ 10) := by
  constructor
  · simp only [meanLatFunc, List.range_succ, List.range_zero, List.nil_append,
      List.cons_append, List.map_cons, List.map_nil, List.zipWith_cons_cons,
      List.zipWith_nil_right, List.sum_cons, List.sum_nil]
    norm_num
  · norm_num

/-- C9 amended: `mean_lat`'s per-class computation (which its mis-placed
`return` at line 354 in fact never returns, see the result notes)
equals, for each class `k`, the SUM of the latitudes of the locations
assigned to `k` divided by the TOTAL number of locations, not the mean
latitude over the assigned locations. -/
theorem mean_lat_characterization (lats : List ℚ) (arr : List ℤ) (K : ℕ)
    (hl : lats.length = arr.length) (h0 : 0 < arr.length) :
    ∀ k, k < K → (meanLatFunc lats arr K).getD k 0
      = latSumOfClass lats arr (k : ℤ) / (arr.length : ℚ) := by
  intro k hk
  have hlen : k < (meanLatFunc lats arr K).length := by
    rw [meanLatFunc, List.length_map, List.length_range]; exact hk
  rw [List.getD_eq_getElem _ _ hlen]
  unfold meanLatFunc
  rw [List.getElem_map, List.getElem_range, zipWith_mask_sum]

/-- Witness for the amended C9 at latitudes `[10, 20]`, assignment
`[0, 1]`, class 1. -/
theorem mean_lat_characterization_witness :
    (meanLatFunc [10, 20] [0, 1] 2).getD 1 0
      = latSumOfClass [10, 20] [0, 1] ((1 : ℕ) : ℤ)
          / ((([0, 1] : List ℤ).length : ℕ) : ℚ) :=
  mean_lat_characterization [10, 20] [0, 1] 2 (by decide) (by decide) 1
    (by decide)

lemma getD_range {K i : ℕ} (h : i < K) : (List.range K).getD i 0 = i := by
  rw [List.getD_eq_getElem _ _ (by rw [List.length_range]; exact h)]
  exact List.getElem_range _ _

/-- `reorder` with the identity permutation `range K` is the identity on
assignments whose labels are in `[0, K)` or the sentinel. -/
lemma reorder_range_eq_self (a : List ℤ) (K : ℕ)
    (ha : ∀ v ∈ a, v = -1 ∨ (0 ≤ v ∧ v < (K : ℤ))) :
    reorder a (List.range K) = a := by
  unfold reorder
  have hid : ∀ v ∈ a, reorderLabel (List.range K) v = v := by
    intro v hv
    rcases ha v hv with hsen | ⟨h0, hK⟩
    · rw [hsen, reorderLabel_sentinel]
    · have hvK : v.toNat < K := by omega
      have hcast : ((List.range K).getD v.toNat 0 : ℤ) = v := by
        rw [getD_range hvK, Int.toNat_of_nonneg h0]
      have := reorderLabel_getD (List.range K) (List.nodup_range K)
        (fun x hx => by
          rw [List.length_range]; exact List.mem_range.mp hx)
        v.toNat (by rw [List.length_range]; exact hvK)
      rw [hcast] at this
      rw [this, Int.toNat_of_nonneg h0]
  rw [List.map_congr_left hid, List.map_id']

/-- C7: for the three-class summary with shallowest-level means
`[5, 1, 3]`, `temp_sort` relabels classes 0, 1, 2 to ranks 2, 0, 1
(ascending by shallowest-level mean); and on any summary whose
shallowest-level means are already strictly ascending, `temp_sort`
returns the assignment unchanged. -/
theorem temp_sort_rank_and_noop :
    (temp_sort [0, 1, 2] [⟨[5], [0]⟩, ⟨[1], [0]⟩, ⟨[3], [0]⟩] = [2, 0, 1]) ∧
    ∀ (a : List ℤ) (avg : List ProfSummary) (K : ℕ),
      avg.length = K →
      (∀ i j, i < j → j < K →
        (topMeans avg).getD i 0 < (topMeans avg).getD j 0) →
      (∀ v ∈ a, v = -1 ∨ (0 ≤ v ∧ v < (K : ℤ))) →
      temp_sort a avg = a := by
  constructor
  · decide
  · intro a avg K hK hsorted ha
    have hlen : (topMeans avg).length = K := by
      rw [topMeans, List.length_map, hK]
    have hsort : List.Sorted
        (fun i j => (topMeans avg).getD i 0 ≤ (topMeans avg).getD j 0)
        (List.range K) := by
      refine (List.pairwise_lt_range K).imp_of_mem ?_
      intro i j hi hj hij
      exact le_of_lt (hsorted i j hij (List.mem_range.mp hj))
    have hargsort : argsortQ (topMeans avg) = List.range K := by
      unfold argsortQ
      rw [hlen]
      exact hsort.insertionSort_eq
    rw [temp_sort, hargsort]
    exact reorder_range_eq_self a K ha

/-- Witness for the no-op half of C7: an already ascending two-class
summary leaves the assignment `[-1, 0, 1]` unchanged. -/
theorem temp_sort_rank_and_noop_witness :
    temp_sort [-1, 0, 1] [⟨[1], [0]⟩, ⟨[2], [0]⟩] = [-1, 0, 1] :=
  temp_sort_rank_and_noop.2 [-1, 0, 1] [⟨[1], [0]⟩, ⟨[2], [0]⟩] 2 (by decide)
    (by
      intro i j hij hj
      have hij' : i = 0 ∧ j = 1 := by omega
      obtain ⟨hi0, hj1⟩ := hij'
      subst hi0; subst hj1
      decide)
    (by decide)

lemma not_lt_of_getD_gt (r : List ℚ) (v : ℚ)
    (h : ∀ q, q < r.length → v < r.getD q 0) : ∀ w ∈ r, ¬ w < v := by
  intro w hw
  obtain ⟨q, hq, hqw⟩ := List.mem_iff_getElem.mp hw
  have hv := h q hq
  rw [List.getD_eq_getElem _ _ hq, hqw] at hv
  exact lt_asymm hv

lemma argminFrom_no_update : ∀ (rest : List ℚ) (i bi : ℕ) (bv : ℚ),
    (∀ v ∈ rest, ¬ v < bv) → argminFrom i bi bv rest = bi := by
  intro rest
  induction rest with
  | nil => intro i bi bv _; rfl
  | cons v r ih =>
    intro i bi bv h
    unfold argminFrom
    rw [if_neg (h v (List.mem_cons_self v r))]
    exact ih (i + 1) bi bv (fun w hw => h w (List.mem_cons_of_mem v hw))

lemma argminFrom_unique : ∀ (rest : List ℚ) (p i bi : ℕ) (bv : ℚ),
    p < rest.length → rest.getD p 0 < bv →
    (∀ q, q < rest.length → q ≠ p → rest.getD p 0 < rest.getD q 0) →
    argminFrom i bi bv rest = i + p := by
  intro rest
  induction rest with
  | nil => intro p i bi bv hp; exact absurd hp (by simp)
  | cons v r ih =>
    intro p i bi bv hp hlt huniq
    cases p with
    | zero =>
      rw [List.getD_cons_zero] at hlt huniq
      unfold argminFrom
      rw [if_pos hlt]
      have hno : ∀ w ∈ r, ¬ w < v := by
        apply not_lt_of_getD_gt
        intro q hq
        have := huniq (q + 1) (by simp; omega) (by omega)
        rwa [List.getD_cons_succ] at this
      rw [argminFrom_no_update r (i + 1) i v hno]
      omega
    | succ p' =>
      have hp' : p' < r.length := by simp at hp; omega
      rw [List.getD_cons_succ] at hlt huniq
      by_cases hvb : v < bv
      · unfold argminFrom
        rw [if_pos hvb]
        have h1 : r.getD p' 0 < v := by
          have := huniq 0 (by simp) (by omega)
          rwa [List.getD_cons_zero] at this
        have h2 : ∀ q, q < r.length → q ≠ p' → r.getD p' 0 < r.getD q 0 := by
          intro q hq hqp
          have := huniq (q + 1) (by simp; omega) (by omega)
          rwa [List.getD_cons_succ] at this
        rw [ih p' (i + 1) i v hp' h1 h2]
        omega
      · unfold argminFrom
        rw [if_neg hvb]
        have h2 : ∀ q, q < r.length → q ≠ p' → r.getD p' 0 < r.getD q 0 := by
          intro q hq hqp
          have := huniq (q + 1) (by simp; omega) (by omega)
          rwa [List.getD_cons_succ] at this
        rw [ih p' (i + 1) bi bv hp' hlt h2]
        omega

/-- `np.argmin` returns the position of a strict unique minimum. -/
lemma argminList_unique (l : List ℚ) (j : ℕ) (hj : j < l.length)
    (hmin : ∀ q, q < l.length → q ≠ j → l.getD j 0 < l.getD q 0) :
    argminList l = j := by
  cases l with
  | nil => exact absurd hj (by simp)
  | cons v r =>
    cases j with
    | zero =>
      show argminFrom 1 0 v r = 0
      rw [List.getD_cons_zero] at hmin
      apply argminFrom_no_update
      apply not_lt_of_getD_gt
      intro q hq
      have := hmin (q + 1) (by simp; omega) (by omega)
      rwa [List.getD_cons_succ] at this
    | succ j' =>
      show argminFrom 1 0 v r = j' + 1
      have hj' : j' < r.length := by simp at hj; omega
      rw [List.getD_cons_succ] at hmin
      have h1 : r.getD j' 0 < v := by
        have := hmin 0 (by simp) (by omega)
        rwa [List.getD_cons_zero] at this
      have h2 : ∀ q, q < r.length → q ≠ j' → r.getD j' 0 < r.getD q 0 := by
        intro q hq hqp
        have := hmin (q + 1) (by simp; omega) (by omega)
        rwa [List.getD_cons_succ] at this
      rw [argminFrom_unique r j' 1 0 v hj' h1 h2]
      omega

lemma sqDiff_self (a : List ℚ) : sqDiff a a = 0 := by
  induction a with
  | nil => rfl
  | cons x r ih => simp [sqDiff, sub_self] at ih ⊢

lemma sqDiff_nonneg (a b : List ℚ) : 0 ≤ sqDiff a b := by
  induction a generalizing b with
  | nil => simp [sqDiff]
  | cons x r ih =>
    cases b with
    | nil => simp [sqDiff]
    | cons y s =>
      simp only [sqDiff, List.zipWith_cons_cons, List.sum_cons]
      exact add_nonneg (mul_self_nonneg _) (ih s)

/-- C5: if `avg1` is `avg0` permuted by `perm` (mean profiles) and no
two mean profiles of `avg0` are equidistant from any one of them, then
`match_profiles avg0 avg1` recovers `perm` exactly. -/
theorem match_profiles_recovers_perm (avg0 avg1 : List ProfSummary)
    (perm : List ℕ) (K : ℕ)
    (h0 : avg0.length = K) (h1 : avg1.length = K) (hpl : perm.length = K)
    (hpn : perm.Nodup) (hpb : ∀ x ∈ perm, x < K)
    (hmatch : ∀ i, i < K →
      (avg1.getD (perm.getD i 0) emptyProf).mean
        = (avg0.getD i emptyProf).mean)
    (hdist : ∀ j i i', j < K → i < K → i' < K → i ≠ i' →
      sqDiff (avg0.getD j emptyProf).mean (avg0.getD i emptyProf).mean ≠
        sqDiff (avg0.getD j emptyProf).mean (avg0.getD i' emptyProf).mean) :
    match_profiles avg0 avg1 = some perm := by
  unfold match_profiles
  rw [if_pos (h0.trans h1.symm)]
  congr 1
  apply List.ext_getElem
  · rw [List.length_map, List.length_range, h0, hpl]
  · intro i hi1 hi2
    rw [List.length_map, List.length_range, h0] at hi1
    rw [List.getElem_map, List.getElem_range]
    set rowlist := (List.range avg0.length).map (fun j =>
      sqDiff (avg0.getD i emptyProf).mean (avg1.getD j emptyProf).mean)
      with hrowdef
    have hrowget : ∀ x, x < K → rowlist.getD x 0
        = sqDiff (avg0.getD i emptyProf).mean (avg1.getD x emptyProf).mean := by
      intro x hx
      rw [hrowdef, getD_map_getD _ _ 0 0 (by rw [List.length_range, h0]; exact hx),
        getD_range (by rw [h0]; exact hx)]
    have hrowlen : rowlist.length = K := by
      rw [hrowdef, List.length_map, List.length_range, h0]
    have hji : perm.getD i 0 < K := hpb _ (getD_mem_of_lt perm 0 (hpl ▸ hi1))
    have hzero : rowlist.getD (perm.getD i 0) 0 = 0 := by
      rw [hrowget _ hji, hmatch i hi1, sqDiff_self]
    have hmain : argminList rowlist = perm.getD i 0 := by
      apply argminList_unique rowlist (perm.getD i 0) (by rw [hrowlen]; exact hji)
      intro q hq hqne
      rw [hrowlen] at hq
      obtain ⟨iq, hiqK, hiq⟩ := perm_getD_surj perm K hpl hpn hpb q hq
      have hiqne : iq ≠ i := by
        intro h
        subst h
        exact hqne hiq.symm
      have hval : rowlist.getD q 0
          = sqDiff (avg0.getD i emptyProf).mean
              (avg0.getD iq emptyProf).mean := by
        rw [hrowget q hq, ← hiq, hmatch iq hiqK]
      have hne0 : rowlist.getD q 0 ≠ 0 := by
        rw [hval]
        intro h
        exact hdist i i iq hi1 hi1 hiqK (fun he => hiqne he.symm)
          (by rw [sqDiff_self, h])
      have hge : 0 ≤ rowlist.getD q 0 := by
        rw [hrowget q hq]
        exact sqDiff_nonneg _ _
      rw [hzero]
      exact lt_of_le_of_ne hge (fun h => hne0 h.symm)
    rw [hmain, List.getD_eq_getElem _ _ (hpl ▸ hi1)]

/-- Witness for C5: `avg1 = [⟨[1]⟩, ⟨[0]⟩]` is `avg0 = [⟨[0]⟩, ⟨[1]⟩]`
permuted by `[1, 0]`, and the two mean profiles are at distinct
distances from each of them; `match_profiles` returns `[1, 0]`. -/
theorem match_profiles_recovers_perm_witness :
    match_profiles [⟨[0], [0]⟩, ⟨[1], [0]⟩] [⟨[1], [0]⟩, ⟨[0], [0]⟩]
      = some [1, 0] :=
  match_profiles_recovers_perm [⟨[0], [0]⟩, ⟨[1], [0]⟩]
    [⟨[1], [0]⟩, ⟨[0], [0]⟩] [1, 0] 2 (by decide) (by decide) (by decide)
    (by decide) (by decide)
    (by
      intro i hi
      interval_cases i <;> decide)
    (by
      intro j i i' hj hi hi' hne
      interval_cases j <;> interval_cases i <;> interval_cases i' <;>
        first
        | exact absurd rfl hne
        | (simp only [List.getD_cons_zero, List.getD_cons_succ, sqDiff,
            List.zipWith_cons_cons, List.zipWith_nil_right, List.sum_cons,
            List.sum_nil]
           norm_num))

lemma getD_zipWith {α β γ : Type _} (f : α → β → γ) (a : List α)
    (b : List β) {i : ℕ} (d : γ) (da : α) (db : β) (ha : i < a.length)
    (hb : i < b.length) :
    (List.zipWith f a b).getD i d = f (a.getD i da) (b.getD i db) := by
  rw [List.getD_eq_getElem _ _ (by rw [List.length_zipWith]; exact lt_min ha hb),
    List.getElem_zipWith, List.getD_eq_getElem _ _ ha,
    List.getD_eq_getElem _ _ hb]

/-- C6 counterexample: the input has one time slice with two locations
of which exactly one is valid, and `N = 1` does not exceed the valid
count; `[1]` is a legal outcome of `rng.choice` (one distinct in-range
index), yet the returned sample is the fully-missing profile:
`random_sample` draws from ALL locations, with no validity filtering. -/
theorem random_sample_counterexample :
    validCount [[some 1, some 2], [none, none]] = 1 ∧
    ([1] : List ℕ).Nodup ∧ ([1] : List ℕ).length = 1 ∧ (1 : ℕ) < 2 ∧
    random_sample [[[some 1, some 2], [none, none]]] [[1]] 1
      = [[none, none]] ∧
    validRow [none, none] = false := by
  decide

/-- C6 amended: for each time slice, `random_sample` returns exactly `N`
profiles drawn without replacement (distinct location indices) from ALL
of that slice's locations - valid or not, missing profiles are not
excluded - and the per-slice samples are interleaved into a single
sample array of `N * T` rows. -/
theorem random_sample_per_slice (data : List (List (List Val)))
    (sels : List (List ℕ)) (N T : ℕ)
    (hT : data.length = T) (hsl : sels.length = T)
    (hsel : ∀ t, t < T → (sels.getD t []).length = N ∧
      (sels.getD t []).Nodup ∧
      ∀ i ∈ sels.getD t [], i < (data.getD t []).length) :
    (∀ t, t < T →
      ((randomSampleSlices data sels).getD t []).length = N ∧
      (∀ r ∈ (randomSampleSlices data sels).getD t [], r ∈ data.getD t []) ∧
      (∀ m₁ m₂, m₁ < N → m₂ < N → m₁ ≠ m₂ →
        (sels.getD t []).getD m₁ 0 ≠ (sels.getD t []).getD m₂ 0)) ∧
    (random_sample data sels N).length = N * T := by
  constructor
  · intro t htT
    obtain ⟨hlen, hnd, hbound⟩ := hsel t htT
    have hslice : (randomSampleSlices data sels).getD t []
        = choiceRows (data.getD t []) (sels.getD t []) := by
      rw [randomSampleSlices]
      exact getD_zipWith choiceRows data sels [] [] []
        (by omega) (by omega)
    refine ⟨?_, ?_, ?_⟩
    · rw [hslice, choiceRows, List.length_map, hlen]
    · intro r hr
      rw [hslice, choiceRows] at hr
      obtain ⟨i, hisel, hir⟩ := List.mem_map.mp hr
      rw [← hir]
      exact getD_mem_of_lt _ [] (hbound i hisel)
    · intro m₁ m₂ hm₁ hm₂ hne
      exact nodup_getD_ne _ hnd (by omega) (by omega) hne
  · rw [random_sample, List.length_flatten, List.map_map]
    have hinner : ∀ m ∈ List.range N,
        (List.length ∘ fun m =>
          (randomSampleSlices data sels).map (fun s => s.getD m [])) m
          = T := by
      intro m _
      simp only [Function.comp_apply, List.length_map, randomSampleSlices,
        List.length_zipWith, hT, hsl, min_self]
    rw [List.map_congr_left hinner]
    have hconst : (List.range N).map (fun _ => T) = List.replicate N T := by
      rw [List.map_const', List.length_range]
    rw [hconst, List.sum_replicate, smul_eq_mul]

/-- Witness for the amended C6 at one slice of two locations, `N = 1`,
selection `[0]`. -/
theorem random_sample_per_slice_witness :
    ((randomSampleSlices [[[some 1, some 2], [none, none]]] [[0]]).getD 0
      []).length = 1 ∧
    (random_sample [[[some 1, some 2], [none, none]]] [[0]] 1).length
      = 1 * 1 := by
  have h := random_sample_per_slice [[[some 1, some 2], [none, none]]] [[0]]
    1 1 (by decide) (by decide) (by decide)
  exact ⟨(h.1 0 (by decide)).1, h.2⟩

end OceanClustering





